import Mathlib

/-!
# Verification of the engram semantic memory store

Shallow embedding of `src/main.py`: a collection-scoped memory store backed by
a record table (`memories`), a vector index (`memory_vecs`) and a full-text
index (`memory_fts`), with hybrid retrieval via reciprocal rank fusion and an
age-biased random sampler.

Modelling conventions:
* SQLite tables are association lists kept in insertion (rowid) order.
* The external embedding service, the vec0 distance metric and the fts5
  match/rank functions are oracle parameters gathered in `Env`.
* Python floats are modelled as exact rationals (`ℚ`).
* `random.choice(rows)` and `ORDER BY RANDOM() LIMIT 1` are modelled by
  explicit index oracles (`r1`, `r2`), reduced modulo the candidate count.
* Python's `sorted(..., reverse=True)` and the SQL `ORDER BY` clauses are
  stable sorts, modelled with `List.mergeSort`.
-/

namespace Engram

/-- A row of the `memories` table: id, collection, text, creation timestamp. -/
structure Memory where
  id : Nat
  collection : String
  text : String
  created_at : String
deriving DecidableEq, Inhabited

/-- The database state: the `memories` table, the `memory_vecs` vec0 virtual
table, the `memory_fts` fts5 virtual table, and the AUTOINCREMENT counter. -/
structure Store where
  memories : List Memory
  memory_vecs : List (Nat × List ℚ)
  memory_fts : List (Nat × String)
  nextId : Nat
deriving DecidableEq

/-- External collaborators: the embedding HTTP service (`get_embedding`, which
either returns a vector or raises a RuntimeError message), the vec0 distance
metric, and the fts5 MATCH predicate and rank function. -/
structure Env where
  embed : String → Except String (List ℚ)
  dist : List ℚ → List ℚ → ℚ
  ftsMatch : String → String → Bool
  ftsRank : String → String → ℚ

/-- A fresh database: empty tables, AUTOINCREMENT starts at 1. -/
def emptyStore : Store :=
  { memories := [], memory_vecs := [], memory_fts := [], nextId := 1 }

/-- The migration step of `get_db` (lines 49-55): insert into `memory_fts` a
row `(id, text)` for every memory whose id is not yet in the fts index. -/
def migrate_fts (st : Store) : Store :=
  let missing := st.memories.filter (fun m => ! st.memory_fts.any (fun p => p.1 = m.id))
  { st with memory_fts := st.memory_fts ++ missing.map (fun m => (m.id, m.text)) }

/-- `SELECT * FROM memories WHERE id = ?` (first match, ids are unique in
reachable states). -/
def findMem (st : Store) (id : Nat) : Option Memory :=
  st.memories.find? (fun m => m.id = id)

/-! ## Reciprocal rank fusion (`reciprocal_rank_fusion`, lines 72-77) -/

/-- One `scores[doc_id] = scores.get(doc_id, 0) + delta` step on the scores
dict, modelled as an association list in key-insertion order: an existing key
keeps its position, a new key is appended at the end. -/
def updateScore {α : Type} [DecidableEq α] (scores : List (α × ℚ)) (docId : α) (delta : ℚ) :
    List (α × ℚ) :=
  match scores with
  | [] => [(docId, delta)]
  | p :: rest =>
    if p.1 = docId then (p.1, p.2 + delta) :: rest
    else p :: updateScore rest docId delta

/-- The inner loop `for rank, doc_id in enumerate(ranking)`, starting at a
given rank. -/
def addRankingAux {α : Type} [DecidableEq α] (k : ℚ) :
    List (α × ℚ) → List α → Nat → List (α × ℚ)
  | scores, [], _ => scores
  | scores, docId :: rest, rank =>
    addRankingAux k (updateScore scores docId (1 / (k + (rank : ℚ) + 1))) rest (rank + 1)

/-- The scores dict after the double loop of `reciprocal_rank_fusion`, in key
insertion order. -/
def rrfScores {α : Type} [DecidableEq α] (rankings : List (List α)) (k : ℚ) : List (α × ℚ) :=
  rankings.foldl (fun acc ranking => addRankingAux k acc ranking 0) []

/-- `reciprocal_rank_fusion(rankings, k)`: accumulate `1 / (k + rank + 1)` per
ranking per id, then `sorted(scores.items(), key=score, reverse=True)` — a
stable descending sort. (The Python default `k = 60` is passed explicitly by
`search_memory`.) -/
def reciprocal_rank_fusion {α : Type} [DecidableEq α] (rankings : List (List α)) (k : ℚ) :
    List (α × ℚ) :=
  (rrfScores rankings k).mergeSort (fun p q => decide (q.2 ≤ p.2))

/-! ## Spec-side definitions for the fusion formula -/

/-- 0-based position of an element in a list (its rank in a ranking). -/
def posOf {α : Type} [DecidableEq α] : List α → α → Nat
  | [], _ => 0
  | y :: ys, x => if y = x then 0 else posOf ys x + 1

/-- Modelled from the spec: the fused score of an id is the sum, over exactly
those rankings containing the id, of `1 / (k + rank + 1)` where `rank` is the
0-based position of the id in that ranking; a ranking not containing the id
contributes 0. -/
def rrf_spec_score {α : Type} [DecidableEq α] (rankings : List (List α)) (k : ℚ) (x : α) : ℚ :=
  (rankings.map (fun r => if x ∈ r then 1 / (k + (posOf r x : ℚ) + 1) else 0)).sum

/-- Total score attached to a key in an association list (sum of all entries
with that key; on nodup-key lists this is the unique entry). -/
def scoreOf {α : Type} [DecidableEq α] (l : List (α × ℚ)) (x : α) : ℚ :=
  ((l.filter (fun p => p.1 = x)).map Prod.snd).sum

/-- First-encounter order of the elements of a list: the iteration order of a
Python dict whose keys were inserted while scanning the list. -/
def firstEncounter {α : Type} [DecidableEq α] (l : List α) : List α :=
  l.foldl (fun acc x => if x ∈ acc then acc else acc ++ [x]) []

theorem scoreOf_nil {α : Type} [DecidableEq α] (x : α) : scoreOf ([] : List (α × ℚ)) x = 0 :=
  rfl

theorem scoreOf_cons {α : Type} [DecidableEq α] (p : α × ℚ) (l : List (α × ℚ)) (x : α) :
    scoreOf (p :: l) x = (if p.1 = x then p.2 else 0) + scoreOf l x := by
  by_cases h : p.1 = x <;> simp [scoreOf, List.filter_cons, h]

theorem scoreOf_updateScore {α : Type} [DecidableEq α] (s : List (α × ℚ)) (d : α) (δ : ℚ)
    (x : α) :
    scoreOf (updateScore s d δ) x = scoreOf s x + (if x = d then δ else 0) := by
  induction s with
  | nil =>
    show scoreOf [(d, δ)] x = scoreOf [] x + (if x = d then δ else 0)
    rw [scoreOf_cons, scoreOf_nil]
    by_cases h : x = d
    · simp [h]
    · simp [h, Ne.symm h]
  | cons p rest ih =>
    by_cases h : p.1 = d
    · rw [updateScore, if_pos h, scoreOf_cons, scoreOf_cons]
      by_cases hx : x = d
      · rw [if_pos hx, if_pos (h.trans hx.symm), if_pos (h.trans hx.symm)]
        ring
      · rw [if_neg hx]
        have hpx : p.1 ≠ x := fun e => hx (e.symm.trans h)
        rw [if_neg hpx, if_neg hpx]
        ring
    · rw [updateScore, if_neg h, scoreOf_cons, scoreOf_cons, ih]
      ring

theorem scoreOf_addRankingAux {α : Type} [DecidableEq α] (k : ℚ) (r : List α) :
    ∀ (s : List (α × ℚ)) (n : Nat) (x : α), r.Nodup →
      scoreOf (addRankingAux k s r n) x =
        scoreOf s x + (if x ∈ r then 1 / (k + (n : ℚ) + (posOf r x : ℚ) + 1) else 0) := by
  induction r with
  | nil =>
    intro s n x _
    simp [addRankingAux]
  | cons d rest ih =>
    intro s n x hnd
    rw [List.nodup_cons] at hnd
    show scoreOf (addRankingAux k (updateScore s d (1 / (k + (n : ℚ) + 1))) rest (n + 1)) x = _
    rw [ih _ (n + 1) x hnd.2, scoreOf_updateScore]
    by_cases hxd : x = d
    · subst hxd
      have hnotin : x ∉ rest := hnd.1
      simp only [hnotin, if_false, if_pos rfl, List.mem_cons, true_or, if_true, posOf]
      push_cast
      ring
    · by_cases hxr : x ∈ rest
      · have hdx : ¬d = x := fun e => hxd e.symm
        simp only [hxd, if_false, hxr, if_true, List.mem_cons, or_true, posOf, hdx]
        push_cast
        ring
      · have hnm : x ∉ d :: rest := by
          rw [List.mem_cons]
          rintro (h | h)
          · exact hxd h
          · exact hxr h
        simp [hxd, hxr, hnm]

theorem rrf_spec_score_cons {α : Type} [DecidableEq α] (r : List α) (rs : List (List α))
    (k : ℚ) (x : α) :
    rrf_spec_score (r :: rs) k x =
      (if x ∈ r then 1 / (k + (posOf r x : ℚ) + 1) else 0) + rrf_spec_score rs k x := by
  simp [rrf_spec_score]

theorem scoreOf_foldl_rrf {α : Type} [DecidableEq α] (k : ℚ) (rankings : List (List α)) :
    ∀ (s : List (α × ℚ)) (x : α), (∀ r ∈ rankings, r.Nodup) →
      scoreOf (rankings.foldl (fun acc ranking => addRankingAux k acc ranking 0) s) x =
        scoreOf s x + rrf_spec_score rankings k x := by
  induction rankings with
  | nil =>
    intro s x _
    simp [rrf_spec_score]
  | cons r rs ih =>
    intro s x h
    rw [List.foldl_cons, ih _ x (fun r2 hr2 => h r2 (List.mem_cons_of_mem _ hr2)),
      scoreOf_addRankingAux k r s 0 x (h r (List.mem_cons_self _ _))]
    rw [rrf_spec_score_cons]
    by_cases hx : x ∈ r
    · simp only [hx, if_true]
      push_cast
      ring
    · simp only [hx, if_false]
      ring

theorem scoreOf_rrfScores {α : Type} [DecidableEq α] (k : ℚ) (rankings : List (List α)) (x : α)
    (h : ∀ r ∈ rankings, r.Nodup) :
    scoreOf (rrfScores rankings k) x = rrf_spec_score rankings k x := by
  rw [rrfScores, scoreOf_foldl_rrf k rankings [] x h, scoreOf_nil, zero_add]

theorem scoreOf_perm {α : Type} [DecidableEq α] {l l2 : List (α × ℚ)} (h : l.Perm l2) (x : α) :
    scoreOf l x = scoreOf l2 x :=
  List.Perm.sum_eq (List.Perm.map Prod.snd (List.Perm.filter _ h))

theorem scoreOf_rrf {α : Type} [DecidableEq α] (k : ℚ) (rankings : List (List α)) (x : α)
    (h : ∀ r ∈ rankings, r.Nodup) :
    scoreOf (reciprocal_rank_fusion rankings k) x = rrf_spec_score rankings k x := by
  rw [← scoreOf_rrfScores k rankings x h]
  exact scoreOf_perm (List.mergeSort_perm _ _) x

theorem keys_updateScore {α : Type} [DecidableEq α] (s : List (α × ℚ)) (d : α) (δ : ℚ) :
    (updateScore s d δ).map Prod.fst =
      if d ∈ s.map Prod.fst then s.map Prod.fst else s.map Prod.fst ++ [d] := by
  induction s with
  | nil => simp [updateScore]
  | cons p rest ih =>
    by_cases h : p.1 = d
    · simp [updateScore, h]
    · have hd : ¬d = p.1 := fun e => h e.symm
      rw [updateScore, if_neg h, List.map_cons, ih, List.map_cons]
      by_cases h2 : d ∈ rest.map Prod.fst
      · rw [if_pos h2, if_pos (List.mem_cons_of_mem _ h2)]
      · rw [if_neg h2, if_neg ?_, List.cons_append]
        rw [List.mem_cons]
        rintro (e | e)
        · exact hd e
        · exact h2 e

theorem keys_addRankingAux {α : Type} [DecidableEq α] (k : ℚ) (r : List α) :
    ∀ (s : List (α × ℚ)) (n : Nat),
      (addRankingAux k s r n).map Prod.fst =
        r.foldl (fun acc x => if x ∈ acc then acc else acc ++ [x]) (s.map Prod.fst) := by
  induction r with
  | nil => intro s n; rfl
  | cons d rest ih =>
    intro s n
    show (addRankingAux k (updateScore s d (1 / (k + (n : ℚ) + 1))) rest (n + 1)).map Prod.fst = _
    rw [ih _ (n + 1), keys_updateScore, List.foldl_cons]

theorem keys_foldl_rrf {α : Type} [DecidableEq α] (k : ℚ) (rankings : List (List α)) :
    ∀ (s : List (α × ℚ)),
      ((rankings.foldl (fun acc ranking => addRankingAux k acc ranking 0) s).map Prod.fst) =
        rankings.flatten.foldl (fun acc x => if x ∈ acc then acc else acc ++ [x])
          (s.map Prod.fst) := by
  induction rankings with
  | nil => intro s; rfl
  | cons r rs ih =>
    intro s
    rw [List.foldl_cons, ih, keys_addRankingAux, List.flatten_cons, List.foldl_append]

theorem keys_rrfScores_eq_firstEncounter {α : Type} [DecidableEq α] (k : ℚ)
    (rankings : List (List α)) :
    (rrfScores rankings k).map Prod.fst = firstEncounter rankings.flatten := by
  rw [rrfScores, keys_foldl_rrf, firstEncounter]
  rfl

theorem nodup_foldl_insertNew {α : Type} [DecidableEq α] :
    ∀ (l : List α) (acc : List α), acc.Nodup →
      (l.foldl (fun acc x => if x ∈ acc then acc else acc ++ [x]) acc).Nodup := by
  intro l
  induction l with
  | nil => intro acc h; exact h
  | cons x xs ih =>
    intro acc h
    rw [List.foldl_cons]
    by_cases hx : x ∈ acc
    · rw [if_pos hx]; exact ih acc h
    · rw [if_neg hx]
      refine ih _ ?_
      rw [List.nodup_append]
      exact ⟨h, List.nodup_singleton x, by simpa using hx⟩

theorem mem_foldl_insertNew {α : Type} [DecidableEq α] :
    ∀ (l : List α) (acc : List α) (x : α),
      x ∈ l.foldl (fun acc x => if x ∈ acc then acc else acc ++ [x]) acc ↔
        x ∈ acc ∨ x ∈ l := by
  intro l
  induction l with
  | nil => intro acc x; simp
  | cons y ys ih =>
    intro acc x
    rw [List.foldl_cons]
    by_cases hy : y ∈ acc
    · rw [if_pos hy, ih]
      constructor
      · rintro (h | h)
        · exact Or.inl h
        · exact Or.inr (List.mem_cons_of_mem _ h)
      · rintro (h | h)
        · exact Or.inl h
        · rcases List.mem_cons.mp h with rfl | h
          · exact Or.inl hy
          · exact Or.inr h
    · rw [if_neg hy, ih]
      simp only [List.mem_append, List.mem_singleton, List.mem_cons]
      tauto

theorem keys_rrfScores_nodup {α : Type} [DecidableEq α] (k : ℚ) (rankings : List (List α)) :
    ((rrfScores rankings k).map Prod.fst).Nodup := by
  rw [keys_rrfScores_eq_firstEncounter, firstEncounter]
  exact nodup_foldl_insertNew _ [] List.nodup_nil

theorem mem_keys_rrfScores {α : Type} [DecidableEq α] (k : ℚ) (rankings : List (List α))
    (x : α) :
    x ∈ (rrfScores rankings k).map Prod.fst ↔ ∃ r ∈ rankings, x ∈ r := by
  rw [keys_rrfScores_eq_firstEncounter, firstEncounter, mem_foldl_insertNew]
  simp [List.mem_flatten]

theorem filter_key_eq_of_mem {α : Type} [DecidableEq α] :
    ∀ {l : List (α × ℚ)}, (l.map Prod.fst).Nodup → ∀ {p : α × ℚ}, p ∈ l →
      l.filter (fun q => q.1 = p.1) = [p] := by
  intro l
  induction l with
  | nil => intro _ p hp; cases hp
  | cons q rest ih =>
    intro hnd p hp
    rw [List.map_cons, List.nodup_cons] at hnd
    rcases List.mem_cons.mp hp with rfl | hp
    · rw [List.filter_cons, if_pos (by simp)]
      have : rest.filter (fun q2 => q2.1 = p.1) = [] := by
        rw [List.filter_eq_nil_iff]
        intro a ha
        simp only [decide_eq_true_eq]
        intro e
        exact hnd.1 (e ▸ List.mem_map_of_mem Prod.fst ha)
      rw [this]
    · have hq : ¬q.1 = p.1 := by
        intro e
        exact hnd.1 (e ▸ List.mem_map_of_mem Prod.fst hp)
      rw [List.filter_cons, if_neg (by simpa using hq)]
      exact ih hnd.2 hp

theorem snd_eq_scoreOf {α : Type} [DecidableEq α] {l : List (α × ℚ)}
    (hnd : (l.map Prod.fst).Nodup) {p : α × ℚ} (hp : p ∈ l) :
    scoreOf l p.1 = p.2 := by
  rw [scoreOf, filter_key_eq_of_mem hnd hp]
  simp

theorem scoreLE_trans {α : Type} (a b c : α × ℚ)
    (hab : decide (b.2 ≤ a.2) = true) (hbc : decide (c.2 ≤ b.2) = true) :
    decide (c.2 ≤ a.2) = true := by
  rw [decide_eq_true_eq] at *
  exact le_trans hbc hab

theorem scoreLE_total {α : Type} (a b : α × ℚ) :
    (decide (b.2 ≤ a.2) || decide (a.2 ≤ b.2)) = true := by
  rcases le_total a.2 b.2 with h | h <;> simp [h]

/-- C1: on rankings without duplicate ids, every output entry of
`reciprocal_rank_fusion` (with the default smoothing constant 60) carries
exactly the spec score — the sum, over exactly those rankings containing the
id, of `1 / (60 + rank + 1)` with `rank` the 0-based position, a ranking not
containing the id contributing 0 — the output ids are exactly the ids
occurring in some ranking, and the output is sorted by fused score
descending. -/
theorem rrf_score_formula {α : Type} [DecidableEq α] (rankings : List (List α))
    (hnd : ∀ r ∈ rankings, r.Nodup) :
    (∀ p ∈ reciprocal_rank_fusion rankings 60, p.2 = rrf_spec_score rankings 60 p.1) ∧
    (∀ x : α, (∃ p ∈ reciprocal_rank_fusion rankings 60, p.1 = x) ↔ ∃ r ∈ rankings, x ∈ r) ∧
    (reciprocal_rank_fusion rankings 60).Pairwise (fun p q => q.2 ≤ p.2) := by
  have hperm : (reciprocal_rank_fusion rankings 60).Perm (rrfScores rankings 60) :=
    List.mergeSort_perm _ _
  have hkeys : ((reciprocal_rank_fusion rankings 60).map Prod.fst).Nodup :=
    (List.Perm.nodup_iff (hperm.map Prod.fst)).mpr (keys_rrfScores_nodup 60 rankings)
  refine ⟨?_, ?_, ?_⟩
  · intro p hp
    rw [← snd_eq_scoreOf hkeys hp, scoreOf_rrf 60 rankings p.1 hnd]
  · intro x
    constructor
    · rintro ⟨p, hp, rfl⟩
      exact (mem_keys_rrfScores 60 rankings p.1).mp
        ((List.Perm.mem_iff (hperm.map Prod.fst)).mp (List.mem_map_of_mem Prod.fst hp))
    · intro hx
      have hm : x ∈ (reciprocal_rank_fusion rankings 60).map Prod.fst :=
        (List.Perm.mem_iff (hperm.map Prod.fst)).mpr
          ((mem_keys_rrfScores 60 rankings x).mpr hx)
      rcases List.mem_map.mp hm with ⟨p, hp, he⟩
      exact ⟨p, hp, he⟩
  · have hs := @List.sorted_mergeSort (α × ℚ) (fun p q => decide (q.2 ≤ p.2))
      scoreLE_trans scoreLE_total (rrfScores rankings 60)
    exact hs.imp (fun h => of_decide_eq_true h)

/-- Witness for C1: concrete rankings `[[1, 2], [2, 3]]`. -/
theorem rrf_score_formula_witness :
    (reciprocal_rank_fusion [[1, 2], [2, 3]] 60).Pairwise
      (fun p q : Nat × ℚ => q.2 ≤ p.2) :=
  (rrf_score_formula [[1, 2], [2, 3]] (by decide)).2.2

theorem posOf_eq_of_getElem? {α : Type} [DecidableEq α] :
    ∀ (l : List α) (n : Nat) (x : α), l.Nodup → l[n]? = some x → posOf l x = n := by
  intro l
  induction l with
  | nil =>
    intro n x _ h
    simp at h
  | cons y ys ih =>
    intro n x hnd h
    match n with
    | 0 =>
      rw [List.getElem?_cons_zero, Option.some.injEq] at h
      show (if y = x then 0 else posOf ys x + 1) = 0
      rw [if_pos h]
    | n + 1 =>
      rw [List.getElem?_cons_succ] at h
      have hx : x ∈ ys := List.getElem?_mem h
      have hyx : ¬y = x := fun e => (List.nodup_cons.mp hnd).1 (e ▸ hx)
      show (if y = x then 0 else posOf ys x + 1) = n + 1
      rw [if_neg hyx, ih n x (List.nodup_cons.mp hnd).2 h]

/-- C5: with the smoothing constant `k ≥ 0`, an id sitting at rank `r` of both
rankings of a fusion call gets fused score exactly `2 / (k + r + 1)`, an id
sitting at rank `r` of one ranking and absent from the other gets exactly
`1 / (k + r + 1)`, and the former is strictly larger than the latter. -/
theorem rrf_both_beats_single {α : Type} [DecidableEq α] (r1 r2 s1 s2 : List α) (k : ℚ)
    (hk : 0 ≤ k) (r : Nat) (h1 : r1.Nodup) (h2 : r2.Nodup) (h3 : s1.Nodup) (h4 : s2.Nodup)
    (a b : α) (ha1 : r1[r]? = some a) (ha2 : r2[r]? = some a)
    (hb1 : s1[r]? = some b) (hb2 : b ∉ s2) :
    scoreOf (reciprocal_rank_fusion [r1, r2] k) a = 2 / (k + (r : ℚ) + 1) ∧
    scoreOf (reciprocal_rank_fusion [s1, s2] k) b = 1 / (k + (r : ℚ) + 1) ∧
    scoreOf (reciprocal_rank_fusion [s1, s2] k) b <
      scoreOf (reciprocal_rank_fusion [r1, r2] k) a := by
  have hma1 : a ∈ r1 := List.getElem?_mem ha1
  have hma2 : a ∈ r2 := List.getElem?_mem ha2
  have hmb1 : b ∈ s1 := List.getElem?_mem hb1
  have hndr : ∀ l ∈ [r1, r2], l.Nodup := by
    intro l hl
    rcases List.mem_cons.mp hl with rfl | hl
    · exact h1
    · rcases List.mem_cons.mp hl with rfl | hl
      · exact h2
      · cases hl
  have hnds : ∀ l ∈ [s1, s2], l.Nodup := by
    intro l hl
    rcases List.mem_cons.mp hl with rfl | hl
    · exact h3
    · rcases List.mem_cons.mp hl with rfl | hl
      · exact h4
      · cases hl
  have ea : scoreOf (reciprocal_rank_fusion [r1, r2] k) a = 2 / (k + (r : ℚ) + 1) := by
    rw [scoreOf_rrf k [r1, r2] a hndr]
    rw [rrf_spec_score]
    simp only [List.map_cons, List.map_nil, List.sum_cons, List.sum_nil, hma1, hma2, if_true,
      posOf_eq_of_getElem? r1 r a h1 ha1, posOf_eq_of_getElem? r2 r a h2 ha2]
    ring
  have eb : scoreOf (reciprocal_rank_fusion [s1, s2] k) b = 1 / (k + (r : ℚ) + 1) := by
    rw [scoreOf_rrf k [s1, s2] b hnds]
    rw [rrf_spec_score]
    simp only [List.map_cons, List.map_nil, List.sum_cons, List.sum_nil, hmb1, hb2, if_true,
      if_false, posOf_eq_of_getElem? s1 r b h3 hb1]
    ring
  refine ⟨ea, eb, ?_⟩
  rw [ea, eb]
  have hr0 : (0 : ℚ) ≤ (r : ℚ) := Nat.cast_nonneg r
  have hc : (0 : ℚ) < k + (r : ℚ) + 1 := by linarith
  rw [div_lt_div_iff₀ hc hc]
  nlinarith

/-- Witness for C5: rankings `[[9, 1], [8, 1]]` and `[[5, 3], [4]]` at rank 1. -/
theorem rrf_both_beats_single_witness :
    scoreOf (reciprocal_rank_fusion [[9, 1], [8, 1]] 60) 1 = 2 / (60 + (1 : ℚ) + 1) ∧
    scoreOf (reciprocal_rank_fusion [[5, 3], [4]] 60) 3 = 1 / (60 + (1 : ℚ) + 1) ∧
    scoreOf (reciprocal_rank_fusion [([5, 3] : List Nat), [4]] 60) 3 <
      scoreOf (reciprocal_rank_fusion [([9, 1] : List Nat), [8, 1]] 60) 1 :=
  rrf_both_beats_single [9, 1] [8, 1] [5, 3] [4] 60 (by norm_num) 1
    (by decide) (by decide) (by decide) (by decide) 1 3 (by decide) (by decide) (by decide)
    (by decide)

/-- C6: `reciprocal_rank_fusion` is a pure function of its rankings and `k`
(identical inputs give the identical output list), entries tied at any fused
score value `v` appear in the output in their scores-dict insertion order
(stability of the descending sort), and the scores-dict key order is exactly
the first-encounter order of ids across the rankings. -/
theorem rrf_deterministic_stable {α : Type} [DecidableEq α]
    (rankings1 rankings2 : List (List α)) (k1 k2 : ℚ) (h : rankings1 = rankings2)
    (hk : k1 = k2) (v : ℚ) :
    reciprocal_rank_fusion rankings1 k1 = reciprocal_rank_fusion rankings2 k2 ∧
    ((rrfScores rankings1 k1).filter (fun p => p.2 = v)).Sublist
      (reciprocal_rank_fusion rankings1 k1) ∧
    (rrfScores rankings1 k1).map Prod.fst = firstEncounter rankings1.flatten := by
  subst h
  subst hk
  refine ⟨rfl, ?_, keys_rrfScores_eq_firstEncounter k1 rankings1⟩
  apply List.sublist_mergeSort scoreLE_trans scoreLE_total
  · apply List.pairwise_of_forall_mem_list
    intro p hp q hq
    have hpv : p.2 = v := by simpa using List.of_mem_filter hp
    have hqv : q.2 = v := by simpa using List.of_mem_filter hq
    rw [decide_eq_true_eq, hpv, hqv]
  · exact List.filter_sublist _

/-- Witness for C6: rankings `[[1], [2]]`, where both ids tie at `1 / 61`. -/
theorem rrf_deterministic_stable_witness :
    reciprocal_rank_fusion [([1] : List Nat), [2]] 60 =
      reciprocal_rank_fusion [([1] : List Nat), [2]] 60 ∧
    ((rrfScores [([1] : List Nat), [2]] 60).filter (fun p => p.2 = 1 / 61)).Sublist
      (reciprocal_rank_fusion [([1] : List Nat), [2]] 60) ∧
    (rrfScores [([1] : List Nat), [2]] 60).map Prod.fst =
      firstEncounter ([[1], [2]] : List (List Nat)).flatten :=
  rrf_deterministic_stable [[1], [2]] [[1], [2]] 60 60 rfl rfl (1 / 61)

/-! ## Exposed operations (`save_memory`, `search_memory`, `randomly_remember`,
`list_collections`) -/

/-- `save_memory(collection, text)` (lines 80-108): open the db (running the
idempotent migration), embed the text — on failure return the error message
with nothing persisted — then insert the record and both index entries and
return the confirmation string. `now` models `datetime('now')`. -/
def save_memory (env : Env) (st : Store) (collection text now : String) : Store × String :=
  let db := migrate_fts st
  match env.embed text with
  | Except.error e => (db, e)
  | Except.ok embedding =>
    let memory_id := db.nextId
    ({ memories := db.memories ++
        [{ id := memory_id, collection := collection, text := text, created_at := now }],
       memory_vecs := db.memory_vecs ++ [(memory_id, embedding)],
       memory_fts := db.memory_fts ++ [(memory_id, text)],
       nextId := memory_id + 1 },
     "Saved memory #" ++ toString memory_id ++ " to collection \x27" ++ collection ++ "\x27")

/-- The vector query of `search_memory` (lines 128-135): k-nearest-neighbour
over `memory_vecs` ordered by distance to the query embedding, joined with
`memories` to read each hit id and its collection. -/
def vec_search (env : Env) (st : Store) (q : List ℚ) (limit : Nat) : List (Nat × String) :=
  let knn := (st.memory_vecs.mergeSort
      (fun a b => decide (env.dist a.2 q ≤ env.dist b.2 q))).take limit
  knn.filterMap (fun p => (findMem st p.1).map (fun m => (p.1, m.collection)))

/-- `vec_ids = [id for id, coll in vec_results if coll == collection]`
(line 137): client-side filter of the over-fetched KNN hits to the requested
collection. -/
def search_vec_ids (env : Env) (st : Store) (emb : List ℚ) (collection : String)
    (top_k : Nat) : List Nat :=
  ((vec_search env st emb (top_k * 10)).filter (fun p => p.2 = collection)).map Prod.fst

/-- The FTS query of `search_memory` (lines 140-150): fts5 rows matching the
query, joined with `memories` and restricted to the collection in the query
itself, ordered by fts rank, limited. -/
def fts_search (env : Env) (st : Store) (query collection : String) (limit : Nat) :
    List Nat :=
  let hits := st.memory_fts.filter
    (fun p => env.ftsMatch p.2 query &&
      decide ((findMem st p.1).map Memory.collection = some collection))
  ((hits.mergeSort (fun a b => decide (env.ftsRank a.2 query ≤ env.ftsRank b.2 query))).map
    Prod.fst).take limit

/-- The fused candidate list of `search_memory` (line 153):
`reciprocal_rank_fusion([vec_ids, fts_ids])` with the default `k = 60`. -/
def search_fused (env : Env) (st : Store) (collection query : String) (emb : List ℚ)
    (top_k : Nat) : List (Nat × ℚ) :=
  reciprocal_rank_fusion
    [search_vec_ids env st emb collection top_k,
     fts_search env st query collection (top_k * 10)] 60

/-- Python's `f"{score:.3f}"` on the (rational-modelled) score: three decimal
places, rounding to nearest. -/
def fmtScore (q : ℚ) : String :=
  let n : Int := round (q * 1000)
  toString (n / 1000) ++ "." ++ (toString (1000 + n % 1000)).drop 1

/-- `search_memory(collection, query, top_k)` (lines 111-175): embed the query
(on failure return the message), run both searches, fuse, truncate to
`top_k`; if nothing is left report the no-memories message, otherwise hydrate
the rows and format them in fused order. -/
def search_memory (env : Env) (st : Store) (collection query : String) (top_k : Nat) :
    Store × String :=
  let db := migrate_fts st
  match env.embed query with
  | Except.error e => (db, e)
  | Except.ok embedding =>
    let fused := search_fused env db collection query embedding top_k
    let top_ids := (fused.take top_k).map Prod.fst
    if top_ids.isEmpty then
      (db, "No memories found in collection \x27" ++ collection ++ "\x27")
    else
      let lines := (fused.take top_k).filterMap (fun p =>
        (findMem db p.1).map (fun m =>
          "[#" ++ toString p.1 ++ " · " ++ m.created_at ++ "] (score: " ++ fmtScore p.2 ++
            ")\n" ++ m.text))
      (db, String.intercalate "\n\n---\n\n" lines)

/-- `SELECT * FROM memories WHERE collection = ?`, in rowid order. -/
def collRecords (st : Store) (collection : String) : List Memory :=
  st.memories.filter (fun m => m.collection = collection)

/-- The candidate rows of `randomly_remember` (lines 189-209): the 20 newest
rows for `age = "recent"`, the 20 oldest for `age = "old"`, and otherwise one
row drawn at random from the whole collection (`ORDER BY RANDOM() LIMIT 1`,
modelled by the index oracle `r1`). -/
def rr_rows (st : Store) (collection age : String) (r1 : Nat) : List Memory :=
  let rows := collRecords st collection
  if age = "recent" then
    (rows.mergeSort (fun a b => decide (b.created_at ≤ a.created_at))).take 20
  else if age = "old" then
    (rows.mergeSort (fun a b => decide (a.created_at ≤ b.created_at))).take 20
  else
    (rows[r1 % rows.length]?).toList

/-- The row picked by `randomly_remember`: `random.choice(rows)` (line 214),
modelled by the index oracle `r2`; `none` when the candidate list is empty. -/
def rr_pick (st : Store) (collection age : String) (r1 r2 : Nat) : Option Memory :=
  let rows := rr_rows st collection age r1
  if rows.isEmpty then none
  else some (rows.getD (r2 % rows.length) default)

/-- `randomly_remember(collection, age)` (lines 178-215): open the db, build
the candidate rows, report the no-memories message when empty, else format
the picked row. -/
def randomly_remember (st : Store) (collection age : String) (r1 r2 : Nat) :
    Store × String :=
  let db := migrate_fts st
  match rr_pick db collection age r1 r2 with
  | none => (db, "No memories found in collection \x27" ++ collection ++ "\x27")
  | some m => (db, "[#" ++ toString m.id ++ " · " ++ m.created_at ++ "]\n" ++ m.text)

/-- `list_collections()` (lines 218-236): per-collection count and latest
creation time, ordered by last update descending. -/
def list_collections (st : Store) : Store × String :=
  let db := migrate_fts st
  let colls := firstEncounter (db.memories.map Memory.collection)
  let rows := colls.map (fun c =>
    let ms := db.memories.filter (fun m => m.collection = c)
    (c, ms.length, ((ms.map Memory.created_at).maximum).getD ""))
  let sorted := rows.mergeSort (fun a b => decide (b.2.2 ≤ a.2.2))
  if sorted.isEmpty then
    (db, "No collections yet")
  else
    (db, String.intercalate "\n" (sorted.map (fun r =>
      r.1 ++ ": " ++ toString r.2.1 ++ " " ++ (if r.2.1 = 1 then "memory" else "memories") ++
        " (last updated: " ++ r.2.2 ++ ")")))

/-! ## Reachable states and the lockstep invariant -/

/-- Structural invariant of the database: record ids are unique and below the
AUTOINCREMENT counter, and both indexes hold exactly one entry per record, in
the same order. -/
def Inv (st : Store) : Prop :=
  (st.memories.map Memory.id).Nodup ∧
  (∀ m ∈ st.memories, m.id < st.nextId) ∧
  st.memory_vecs.map Prod.fst = st.memories.map Memory.id ∧
  st.memory_fts.map Prod.fst = st.memories.map Memory.id

/-- The spec's lockstep property: an id has a row in the record table iff it
has exactly one vector-index entry and exactly one text-index entry. -/
def lockstep (st : Store) : Prop :=
  ∀ id : Nat,
    (∃ m ∈ st.memories, m.id = id) ↔
      ((st.memory_vecs.filter (fun p => p.1 = id)).length = 1 ∧
       (st.memory_fts.filter (fun p => p.1 = id)).length = 1)

/-- One call of an exposed operation, relating the database state before to
the state after (read-only operations still run the `get_db` migration). -/
inductive Step : Store → Store → Prop
  | save (env : Env) (st : Store) (collection text now : String) :
      Step st (save_memory env st collection text now).1
  | search (env : Env) (st : Store) (collection query : String) (top_k : Nat) :
      Step st (search_memory env st collection query top_k).1
  | remember (st : Store) (collection age : String) (r1 r2 : Nat) :
      Step st (randomly_remember st collection age r1 r2).1
  | collections (st : Store) : Step st (list_collections st).1

/-- States reachable from the fresh database by exposed operations. -/
def Reachable (st : Store) : Prop :=
  Relation.ReflTransGen Step emptyStore st

theorem migrate_fts_eq_self (st : Store)
    (h : st.memory_fts.map Prod.fst = st.memories.map Memory.id) :
    migrate_fts st = st := by
  have hfil : st.memories.filter (fun m => ! st.memory_fts.any (fun p => p.1 = m.id)) = [] := by
    rw [List.filter_eq_nil_iff]
    intro m hm
    have hmem : m.id ∈ st.memory_fts.map Prod.fst := by
      rw [h]
      exact List.mem_map_of_mem Memory.id hm
    rcases List.mem_map.mp hmem with ⟨p, hp, he⟩
    simp only [Bool.not_eq_true', Bool.not_eq_false]
    rw [List.any_eq_true]
    exact ⟨p, hp, by rw [decide_eq_true_eq]; exact he⟩
  show { st with memory_fts := st.memory_fts ++ _ } = st
  rw [hfil]
  simp

theorem migrate_fts_of_inv {st : Store} (h : Inv st) : migrate_fts st = st :=
  migrate_fts_eq_self st h.2.2.2

theorem inv_emptyStore : Inv emptyStore := by
  refine ⟨List.nodup_nil, ?_, rfl, rfl⟩
  intro m hm
  cases hm

theorem inv_save_memory (env : Env) (st : Store) (collection text now : String)
    (h : Inv st) : Inv (save_memory env st collection text now).1 := by
  obtain ⟨hnd, hlt, hv, hf⟩ := h
  rw [save_memory, migrate_fts_of_inv ⟨hnd, hlt, hv, hf⟩]
  cases henv : env.embed text with
  | error e => exact ⟨hnd, hlt, hv, hf⟩
  | ok embedding =>
    have hnotin : st.nextId ∉ st.memories.map Memory.id := by
      intro hmem
      rcases List.mem_map.mp hmem with ⟨m, hm, he⟩
      exact absurd (he ▸ hlt m hm) (lt_irrefl _)
    refine ⟨?_, ?_, ?_, ?_⟩
    · simp only [List.map_append, List.map_cons, List.map_nil]
      rw [List.nodup_append]
      exact ⟨hnd, List.nodup_singleton _, by simpa using hnotin⟩
    · intro m hm
      rcases List.mem_append.mp hm with hm | hm
      · exact Nat.lt_succ_of_lt (hlt m hm)
      · rcases List.mem_singleton.mp hm with rfl
        exact Nat.lt_succ_self _
    · simp only [List.map_append, List.map_cons, List.map_nil, hv]
    · simp only [List.map_append, List.map_cons, List.map_nil, hf]

theorem search_memory_fst (env : Env) (st : Store) (collection query : String)
    (top_k : Nat) : (search_memory env st collection query top_k).1 = migrate_fts st := by
  rw [search_memory]
  cases env.embed query with
  | error e => rfl
  | ok embedding =>
    dsimp only
    split <;> rfl

theorem randomly_remember_fst (st : Store) (collection age : String) (r1 r2 : Nat) :
    (randomly_remember st collection age r1 r2).1 = migrate_fts st := by
  rw [randomly_remember]
  cases rr_pick (migrate_fts st) collection age r1 r2 <;> rfl

theorem list_collections_fst (st : Store) : (list_collections st).1 = migrate_fts st := by
  rw [list_collections]
  dsimp only
  split <;> rfl

theorem inv_step {st st2 : Store} (h : Inv st) (hs : Step st st2) : Inv st2 := by
  cases hs with
  | save env st collection text now => exact inv_save_memory env st collection text now h
  | search env st collection query top_k =>
    rw [search_memory_fst, migrate_fts_of_inv h]
    exact h
  | remember st collection age r1 r2 =>
    rw [randomly_remember_fst, migrate_fts_of_inv h]
    exact h
  | collections st =>
    rw [list_collections_fst, migrate_fts_of_inv h]
    exact h

theorem inv_of_reachable {st : Store} (h : Reachable st) : Inv st := by
  induction h with
  | refl => exact inv_emptyStore
  | tail _ hstep ih => exact inv_step ih hstep

theorem countP_key_eq_one_iff {l : List Nat} (hnd : l.Nodup) (id : Nat) :
    l.countP (fun x => decide (x = id)) = 1 ↔ id ∈ l := by
  induction l with
  | nil => simp
  | cons a t ih =>
    rw [List.countP_cons, List.nodup_cons] at *
    by_cases ha : a = id
    · subst ha
      have hz : t.countP (fun x => decide (x = a)) = 0 := by
        rw [List.countP_eq_zero]
        intro x hx
        rw [decide_eq_true_eq]
        rintro rfl
        exact hnd.1 hx
      simp [hz]
    · have hne : ¬id = a := fun e => ha e.symm
      simp only [ha, decide_eq_true_eq, if_false, add_zero, ih hnd.2, List.mem_cons, hne,
        false_or]

theorem lockstep_of_inv (st : Store) (h : Inv st) : lockstep st := by
  obtain ⟨hnd, _, hv, hf⟩ := h
  intro id
  have hvlen : (st.memory_vecs.filter (fun p => p.1 = id)).length =
      (st.memories.map Memory.id).countP (fun x => decide (x = id)) := by
    rw [← hv, ← List.countP_eq_length_filter, List.countP_map]
    rfl
  have hflen : (st.memory_fts.filter (fun p => p.1 = id)).length =
      (st.memories.map Memory.id).countP (fun x => decide (x = id)) := by
    rw [← hf, ← List.countP_eq_length_filter, List.countP_map]
    rfl
  rw [hvlen, hflen, and_self, countP_key_eq_one_iff hnd id]
  constructor
  · rintro ⟨m, hm, rfl⟩
    exact List.mem_map_of_mem Memory.id hm
  · intro hm
    rcases List.mem_map.mp hm with ⟨m, hm, he⟩
    exact ⟨m, hm, he⟩

/-- C3: every state reachable from the empty store through the exposed
operations satisfies the lockstep invariant — an id has a row in the record
table iff it has exactly one vector-index entry and exactly one text-index
entry under the same id. -/
theorem reachable_states_lockstep (st : Store) (h : Reachable st) : lockstep st :=
  lockstep_of_inv st (inv_of_reachable h)

/-- Witness for C3: the fresh store is reachable and in lockstep. -/
theorem reachable_states_lockstep_witness : lockstep emptyStore :=
  reachable_states_lockstep emptyStore Relation.ReflTransGen.refl

/-- C2: on an embedding failure both `save_memory` and `search_memory` return
the failure message as their result, and (in any consistent state, where the
idempotent migration is a no-op) the database state is unchanged: no record,
vector-index or text-index row is added. -/
theorem embed_failure_no_persist (env : Env) (st : Store) (hInv : Inv st)
    (collection text now query : String) (top_k : Nat) (e1 e2 : String)
    (ht : env.embed text = Except.error e1) (hq : env.embed query = Except.error e2) :
    save_memory env st collection text now = (st, e1) ∧
    search_memory env st collection query top_k = (st, e2) := by
  constructor
  · rw [save_memory, migrate_fts_of_inv hInv, ht]
  · rw [search_memory, migrate_fts_of_inv hInv, hq]

/-- An environment whose embedding service is unreachable: every call fails
with the RuntimeError message raised by `get_embedding`. -/
def failEnv : Env :=
  { embed := fun _ => Except.error
      "Embedding API unavailable at http://localhost:9090/v1/embeddings: connection refused",
    dist := fun _ _ => 0,
    ftsMatch := fun _ _ => false,
    ftsRank := fun _ _ => 0 }

/-- An environment whose embedding service always answers with the vector
`[1]` and whose text index matches everything. -/
def okEnv : Env :=
  { embed := fun _ => Except.ok [1],
    dist := fun _ _ => 0,
    ftsMatch := fun _ _ => true,
    ftsRank := fun _ _ => 0 }

/-- Witness for C2: a concrete failing environment on the fresh store. -/
theorem embed_failure_no_persist_witness :
    save_memory failEnv emptyStore "notes" "hello" "2024-01-01 00:00:00" =
      (emptyStore,
        "Embedding API unavailable at http://localhost:9090/v1/embeddings: connection refused") ∧
    search_memory failEnv emptyStore "notes" "hello" 5 =
      (emptyStore,
        "Embedding API unavailable at http://localhost:9090/v1/embeddings: connection refused") :=
  embed_failure_no_persist failEnv emptyStore inv_emptyStore "notes" "hello"
    "2024-01-01 00:00:00" "hello" 5 _ _ rfl rfl

theorem vec_search_collection (env : Env) (st : Store) (q : List ℚ) (limit : Nat) :
    ∀ p ∈ vec_search env st q limit, ∃ m ∈ st.memories, m.id = p.1 ∧ m.collection = p.2 := by
  intro p hp
  rw [vec_search] at hp
  rcases List.mem_filterMap.mp hp with ⟨q2, hq2, hmap⟩
  rcases Option.map_eq_some'.mp hmap with ⟨m, hfind, he⟩
  have hm : m ∈ st.memories := List.mem_of_find?_eq_some hfind
  have hid : m.id = q2.1 := by
    have hpred := List.find?_some hfind
    rwa [decide_eq_true_eq] at hpred
  cases he
  exact ⟨m, hm, hid, rfl⟩

theorem fts_search_collection (env : Env) (st : Store) (query collection : String)
    (limit : Nat) :
    ∀ id ∈ fts_search env st query collection limit,
      ∃ m ∈ st.memories, m.id = id ∧ m.collection = collection := by
  intro id hid
  rw [fts_search] at hid
  have hid2 := List.take_subset _ _ hid
  rcases List.mem_map.mp hid2 with ⟨pr, hpr, he⟩
  have hpr2 : pr ∈ st.memory_fts.filter
      (fun p => env.ftsMatch p.2 query &&
        decide ((findMem st p.1).map Memory.collection = some collection)) :=
    (List.Perm.mem_iff (List.mergeSort_perm _ _)).mp hpr
  rcases List.mem_filter.mp hpr2 with ⟨_, hpred⟩
  simp only [Bool.and_eq_true] at hpred
  rcases hpred with ⟨_, hdec⟩
  rw [decide_eq_true_eq] at hdec
  rcases Option.map_eq_some'.mp hdec with ⟨m, hfind, hcoll⟩
  have hidm : m.id = pr.1 := by
    have hpred2 := List.find?_some hfind
    rwa [decide_eq_true_eq] at hpred2
  exact ⟨m, List.mem_of_find?_eq_some hfind, he ▸ hidm, hcoll⟩

theorem search_vec_ids_nil_of_empty_collection (env : Env) (st : Store) (emb : List ℚ)
    (collection : String) (top_k : Nat)
    (hc : ∀ m ∈ st.memories, m.collection ≠ collection) :
    search_vec_ids env st emb collection top_k = [] := by
  have hfil : (vec_search env st emb (top_k * 10)).filter (fun p => p.2 = collection) = [] := by
    rw [List.filter_eq_nil_iff]
    intro p hp
    rcases vec_search_collection env st emb (top_k * 10) p hp with ⟨m, hm, _, hcoll⟩
    rw [decide_eq_true_eq]
    intro e
    exact hc m hm (hcoll.trans e)
  rw [search_vec_ids, hfil, List.map_nil]

theorem fts_search_nil_of_empty_collection (env : Env) (st : Store) (query : String)
    (collection : String) (limit : Nat)
    (hc : ∀ m ∈ st.memories, m.collection ≠ collection) :
    fts_search env st query collection limit = [] := by
  have hfil : st.memory_fts.filter
      (fun p => env.ftsMatch p.2 query &&
        decide ((findMem st p.1).map Memory.collection = some collection)) = [] := by
    rw [List.filter_eq_nil_iff]
    intro p hp
    rw [Bool.and_eq_true]
    rintro ⟨_, hdec⟩
    rw [decide_eq_true_eq] at hdec
    rcases Option.map_eq_some'.mp hdec with ⟨m, hfind, hcoll⟩
    exact hc m (List.mem_of_find?_eq_some hfind) hcoll
  rw [fts_search]
  show ((List.mergeSort _ _).map Prod.fst).take limit = []
  rw [hfil, List.mergeSort_nil, List.map_nil, List.take_nil]

theorem mem_keys_rrf {α : Type} [DecidableEq α] (k : ℚ) (rankings : List (List α)) (x : α) :
    x ∈ (reciprocal_rank_fusion rankings k).map Prod.fst ↔ ∃ r ∈ rankings, x ∈ r := by
  rw [← mem_keys_rrfScores k rankings x]
  exact List.Perm.mem_iff (List.Perm.map Prod.fst (List.mergeSort_perm _ _))

/-- C4: in any consistent store, both retrieval candidate lists of
`search_memory` contain only ids of memories belonging to the requested
collection, and hence a memory saved under a different collection never
appears in the fused candidate list, however its text or embedding scores. -/
theorem collection_isolation (env : Env) (st : Store) (hInv : Inv st)
    (collection query : String) (emb : List ℚ) (top_k : Nat) (m : Memory)
    (hm : m ∈ st.memories) (hmc : m.collection ≠ collection) :
    (∀ id ∈ search_vec_ids env st emb collection top_k,
        ∃ m2 ∈ st.memories, m2.id = id ∧ m2.collection = collection) ∧
    (∀ id ∈ fts_search env st query collection (top_k * 10),
        ∃ m2 ∈ st.memories, m2.id = id ∧ m2.collection = collection) ∧
    m.id ∉ (search_fused env st collection query emb top_k).map Prod.fst := by
  have hvec : ∀ id ∈ search_vec_ids env st emb collection top_k,
      ∃ m2 ∈ st.memories, m2.id = id ∧ m2.collection = collection := by
    intro id hid
    rw [search_vec_ids] at hid
    rcases List.mem_map.mp hid with ⟨p, hp, he⟩
    rcases List.mem_filter.mp hp with ⟨hpv, hpc⟩
    rw [decide_eq_true_eq] at hpc
    rcases vec_search_collection env st emb (top_k * 10) p hpv with ⟨m2, hm2, hid2, hcoll⟩
    exact ⟨m2, hm2, he ▸ hid2, hcoll.trans hpc⟩
  have hfts := fts_search_collection env st query collection (top_k * 10)
  refine ⟨hvec, hfts, ?_⟩
  intro hmem
  rw [search_fused, mem_keys_rrf] at hmem
  have hex : ∃ m2 ∈ st.memories, m2.id = m.id ∧ m2.collection = collection := by
    rcases hmem with ⟨r, hr, hxr⟩
    rcases List.mem_cons.mp hr with rfl | hr
    · exact hvec m.id hxr
    · rcases List.mem_cons.mp hr with rfl | hr
      · exact hfts m.id hxr
      · cases hr
  rcases hex with ⟨m2, hm2, hid2, hcoll2⟩
  have he2 : m2 = m := List.inj_on_of_nodup_map hInv.1 hm2 hm hid2
  rw [← he2] at hmc
  exact hmc hcoll2

/-- A store holding exactly one memory, in collection "a". -/
def st1 : Store :=
  { memories :=
      [{ id := 1, collection := "a", text := "hello world",
         created_at := "2024-01-01 00:00:00" }],
    memory_vecs := [(1, [1])],
    memory_fts := [(1, "hello world")],
    nextId := 2 }

theorem inv_st1 : Inv st1 :=
  ⟨by decide, by decide, by decide, by decide⟩

/-- Witness for C4: the memory of collection "a" in `st1` is not a fused
candidate of a search in collection "b". -/
theorem collection_isolation_witness :
    (1 : Nat) ∉ (search_fused okEnv st1 "b" "hello" [1] 5).map Prod.fst :=
  (collection_isolation okEnv st1 inv_st1 "b" "hello" [1] 5
    { id := 1, collection := "a", text := "hello world",
      created_at := "2024-01-01 00:00:00" }
    (by decide) (by decide)).2.2

/-- C7: when the requested collection holds no records and the embedding call
succeeds, `search_memory` returns exactly the no-memories message with the
collection name interpolated — not an empty list and not a failure. -/
theorem search_empty_collection_message (env : Env) (st : Store) (collection query : String)
    (top_k : Nat) (emb : List ℚ) (hemb : env.embed query = Except.ok emb)
    (hc : ∀ m ∈ st.memories, m.collection ≠ collection) :
    search_memory env st collection query top_k =
      (migrate_fts st, "No memories found in collection \x27" ++ collection ++ "\x27") := by
  have hc2 : ∀ m ∈ (migrate_fts st).memories, m.collection ≠ collection := hc
  have hv := search_vec_ids_nil_of_empty_collection env (migrate_fts st) emb collection
    top_k hc2
  have hf := fts_search_nil_of_empty_collection env (migrate_fts st) query collection
    (top_k * 10) hc2
  have hfused : search_fused env (migrate_fts st) collection query emb top_k = [] := by
    rw [search_fused, hv, hf, reciprocal_rank_fusion,
      show rrfScores ([[], []] : List (List Nat)) 60 = [] from rfl, List.mergeSort_nil]
  rw [search_memory, hemb]
  show (let fused := search_fused env (migrate_fts st) collection query emb top_k;
    let top_ids := (fused.take top_k).map Prod.fst;
    if top_ids.isEmpty then
      (migrate_fts st, "No memories found in collection \x27" ++ collection ++ "\x27")
    else
      let lines := (fused.take top_k).filterMap (fun p =>
        (findMem (migrate_fts st) p.1).map (fun m =>
          "[#" ++ toString p.1 ++ " · " ++ m.created_at ++ "] (score: " ++ fmtScore p.2 ++
            ")\n" ++ m.text))
      (migrate_fts st, String.intercalate "\n\n---\n\n" lines)) = _
  rw [hfused]
  simp

/-- Witness for C7: searching the empty fresh store. -/
theorem search_empty_collection_message_witness :
    search_memory okEnv emptyStore "notes" "hello" 5 =
      (migrate_fts emptyStore, "No memories found in collection \x27notes\x27") :=
  search_empty_collection_message okEnv emptyStore "notes" "hello" 5 [1] rfl
    (by intro m hm; cases hm)

/-- C9: with `top_k = 0` the fused candidate list is truncated to nothing
before the emptiness check, so `search_memory` reports the no-memories
message for every store and every query whose embedding succeeds — even when
the collection is non-empty and has matching records. -/
theorem search_topk_zero_message (env : Env) (st : Store) (collection query : String)
    (emb : List ℚ) (hemb : env.embed query = Except.ok emb) :
    search_memory env st collection query 0 =
      (migrate_fts st, "No memories found in collection \x27" ++ collection ++ "\x27") := by
  rw [search_memory, hemb]
  rfl

/-- Witness for C9: `st1` holds a memory in collection "a" whose text equals
the query, and the environment matches everything, yet `top_k = 0` yields the
no-memories message. -/
theorem search_topk_zero_message_witness :
    search_memory okEnv st1 "a" "hello world" 0 =
      (migrate_fts st1, "No memories found in collection \x27a\x27") :=
  search_topk_zero_message okEnv st1 "a" "hello world" [1] rfl

/-- C10: any age argument other than the exact strings "recent" and "old"
takes the fully-random branch of `randomly_remember`: the result is the row
of the whole collection selected by the random oracle, and every record of
the collection is a possible result. -/
theorem rr_other_age_fully_random (st : Store) (collection age : String)
    (hr : age ≠ "recent") (ho : age ≠ "old") :
    (∀ r1 r2 : Nat, rr_pick st collection age r1 r2 =
        (collRecords st collection)[r1 % (collRecords st collection).length]?) ∧
    (∀ m ∈ collRecords st collection,
        ∃ j : Nat, rr_pick st collection age j 0 = some m) := by
  have hrows : ∀ r1, rr_rows st collection age r1 =
      ((collRecords st collection)[r1 % (collRecords st collection).length]?).toList := by
    intro r1
    rw [rr_rows, if_neg hr, if_neg ho]
  constructor
  · intro r1 r2
    rw [rr_pick, hrows]
    cases hx : (collRecords st collection)[r1 % (collRecords st collection).length]? with
    | none => rfl
    | some m =>
      show (if ([m] : List Memory).isEmpty then none
        else some (([m] : List Memory).getD (r2 % ([m] : List Memory).length) default)) =
          some m
      rw [show ([m] : List Memory).length = 1 from rfl, Nat.mod_one]
      rfl
  · intro m hm
    rcases List.mem_iff_getElem.mp hm with ⟨j, hj, he⟩
    refine ⟨j, ?_⟩
    rw [rr_pick, hrows, Nat.mod_eq_of_lt hj, List.getElem?_eq_getElem hj, he]
    rfl

/-- Witness for C10: the age string "Recent" (wrong capitalisation) on `st1`
selects from the whole collection. -/
theorem rr_other_age_fully_random_witness :
    rr_pick st1 "a" "Recent" 0 0 =
      (collRecords st1 "a")[0 % (collRecords st1 "a").length]? :=
  (rr_other_age_fully_random st1 "a" "Recent" (by decide) (by decide)).1 0 0

/-! ## Age-biased sampling (C8) -/

theorem count_rel_le_index {α : Type} (s : α → α → Prop) [DecidableRel s]
    (hasymm : ∀ x y, s x y → ¬ s y x) (hirr : ∀ x, ¬ s x x) :
    ∀ (l : List α) (i : Nat) (h : i < l.length), l.Pairwise (fun x y => s y x) →
      (l.filter (fun y => s (l.get ⟨i, h⟩) y)).length ≤ i := by
  intro l
  induction l with
  | nil =>
    intro i h _
    exact absurd h (by simp)
  | cons x t ih =>
    intro i h hp
    match i with
    | 0 =>
      have hfil : (x :: t).filter (fun y => s ((x :: t).get ⟨0, h⟩) y) = [] := by
        rw [List.filter_eq_nil_iff]
        intro a ha
        rw [decide_eq_true_eq]
        rcases List.mem_cons.mp ha with rfl | ha
        · exact hirr a
        · exact hasymm a x (List.rel_of_pairwise_cons hp ha)
      rw [hfil]
      exact Nat.le_refl 0
    | i + 1 =>
      have hlt : i < t.length := Nat.lt_of_succ_lt_succ h
      have iht := ih i hlt (List.Pairwise.of_cons hp)
      have hget : (x :: t).get ⟨i + 1, h⟩ = t.get ⟨i, hlt⟩ := rfl
      rw [hget, List.filter_cons]
      by_cases hx : s (t.get ⟨i, hlt⟩) x
      · simp only [hx, decide_True, if_true, List.length_cons]
        omega
      · simp only [hx, decide_False, Bool.false_eq_true, if_false]
        omega

theorem index_le_count_rel {α : Type} (s : α → α → Prop) [DecidableRel s] :
    ∀ (l : List α) (i : Nat) (h : i < l.length), l.Pairwise (fun x y => s y x) →
      i ≤ (l.filter (fun y => s (l.get ⟨i, h⟩) y)).length := by
  intro l
  induction l with
  | nil =>
    intro i h _
    exact absurd h (by simp)
  | cons x t ih =>
    intro i h hp
    match i with
    | 0 => exact Nat.zero_le _
    | i + 1 =>
      have hlt : i < t.length := Nat.lt_of_succ_lt_succ h
      have iht := ih i hlt (List.Pairwise.of_cons hp)
      have hget : (x :: t).get ⟨i + 1, h⟩ = t.get ⟨i, hlt⟩ := rfl
      have hx : s (t.get ⟨i, hlt⟩) x :=
        List.rel_of_pairwise_cons hp (List.get_mem t i hlt)
      rw [hget, List.filter_cons]
      simp only [hx, decide_True, if_true, List.length_cons]
      omega

theorem createdGE_trans (a b c : Memory)
    (hab : decide (b.created_at ≤ a.created_at) = true)
    (hbc : decide (c.created_at ≤ b.created_at) = true) :
    decide (c.created_at ≤ a.created_at) = true := by
  rw [decide_eq_true_eq] at *
  exact le_trans hbc hab

theorem createdGE_total (a b : Memory) :
    (decide (b.created_at ≤ a.created_at) || decide (a.created_at ≤ b.created_at)) = true := by
  rcases le_total a.created_at b.created_at with h | h <;> simp [h]

theorem createdLE_trans (a b c : Memory)
    (hab : decide (a.created_at ≤ b.created_at) = true)
    (hbc : decide (b.created_at ≤ c.created_at) = true) :
    decide (a.created_at ≤ c.created_at) = true := by
  rw [decide_eq_true_eq] at *
  exact le_trans hab hbc

theorem createdLE_total (a b : Memory) :
    (decide (a.created_at ≤ b.created_at) || decide (b.created_at ≤ a.created_at)) = true := by
  rcases le_total a.created_at b.created_at with h | h <;> simp [h]

/-- Modelled from the spec: `m` is one of the `n` most recently created
records of the collection — it belongs to the collection and fewer than `n`
of the collection's records are strictly more recent. -/
def isAmongNewest (st : Store) (collection : String) (n : Nat) (m : Memory) : Prop :=
  m ∈ collRecords st collection ∧
    ((collRecords st collection).filter
      (fun m2 => m.created_at < m2.created_at)).length < n

/-- Modelled from the spec: `m` is one of the `n` oldest records of the
collection — it belongs to the collection and fewer than `n` of the
collection's records are strictly older. -/
def isAmongOldest (st : Store) (collection : String) (n : Nat) (m : Memory) : Prop :=
  m ∈ collRecords st collection ∧
    ((collRecords st collection).filter
      (fun m2 => m2.created_at < m.created_at)).length < n

theorem mem_take_sorted_desc_iff (l : List Memory)
    (hmono : l.Pairwise (fun a b => a.created_at < b.created_at)) (m : Memory) (n : Nat) :
    m ∈ (l.mergeSort (fun a b => decide (b.created_at ≤ a.created_at))).take n ↔
      m ∈ l ∧ (l.filter (fun m2 => m.created_at < m2.created_at)).length < n := by
  have hnd : (l.map Memory.created_at).Nodup :=
    List.pairwise_map.mpr (hmono.imp fun h => ne_of_lt h)
  have hperm := List.mergeSort_perm l (fun a b => decide (b.created_at ≤ a.created_at))
  have hsle : (l.mergeSort (fun a b => decide (b.created_at ≤ a.created_at))).Pairwise
      (fun x y => y.created_at ≤ x.created_at) :=
    (@List.sorted_mergeSort Memory (fun a b => decide (b.created_at ≤ a.created_at))
      createdGE_trans createdGE_total l).imp (fun h => of_decide_eq_true h)
  have hsne : (l.mergeSort (fun a b => decide (b.created_at ≤ a.created_at))).Pairwise
      (fun x y => x.created_at ≠ y.created_at) :=
    List.pairwise_map.mp ((List.Perm.nodup_iff (hperm.map Memory.created_at)).mpr hnd)
  have hstrict : (l.mergeSort (fun a b => decide (b.created_at ≤ a.created_at))).Pairwise
      (fun x y => y.created_at < x.created_at) :=
    (hsle.and hsne).imp (fun h => lt_of_le_of_ne h.1 (Ne.symm h.2))
  have hasymm : ∀ x y : Memory, x.created_at < y.created_at → ¬y.created_at < x.created_at :=
    fun x y h => not_lt.mpr (le_of_lt h)
  have hirr : ∀ x : Memory, ¬x.created_at < x.created_at := fun x => lt_irrefl _
  constructor
  · intro hm
    rcases List.getElem_of_mem hm with ⟨j, hj, he⟩
    rw [List.length_take, Nat.lt_min] at hj
    rw [List.getElem_take] at he
    constructor
    · exact (List.Perm.mem_iff hperm).mp (he ▸ List.getElem_mem hj.2)
    · have hcnt : ((l.mergeSort (fun a b => decide (b.created_at ≤ a.created_at))).filter
          (fun y => m.created_at < y.created_at)).length ≤ j := by
        have h0 := count_rel_le_index (fun a b : Memory => a.created_at < b.created_at)
          hasymm hirr (l.mergeSort (fun a b => decide (b.created_at ≤ a.created_at))) j
          hj.2 hstrict
        rw [show (l.mergeSort (fun a b => decide (b.created_at ≤ a.created_at))).get
          ⟨j, hj.2⟩ = m from he] at h0
        exact h0
      have hlen : ((l.mergeSort (fun a b => decide (b.created_at ≤ a.created_at))).filter
          (fun y => m.created_at < y.created_at)).length =
          (l.filter (fun y => m.created_at < y.created_at)).length :=
        (List.Perm.filter _ hperm).length_eq
      omega
  · rintro ⟨hm, hcnt⟩
    have hms : m ∈ l.mergeSort (fun a b => decide (b.created_at ≤ a.created_at)) :=
      (List.Perm.mem_iff hperm).mpr hm
    rcases List.getElem_of_mem hms with ⟨i, hi, he⟩
    have hidx : i ≤ ((l.mergeSort (fun a b => decide (b.created_at ≤ a.created_at))).filter
        (fun y => m.created_at < y.created_at)).length := by
      have h0 := index_le_count_rel (fun a b : Memory => a.created_at < b.created_at)
        (l.mergeSort (fun a b => decide (b.created_at ≤ a.created_at))) i hi hstrict
      rw [show (l.mergeSort (fun a b => decide (b.created_at ≤ a.created_at))).get
        ⟨i, hi⟩ = m from he] at h0
      exact h0
    have hlen : ((l.mergeSort (fun a b => decide (b.created_at ≤ a.created_at))).filter
        (fun y => m.created_at < y.created_at)).length =
        (l.filter (fun y => m.created_at < y.created_at)).length :=
      (List.Perm.filter _ hperm).length_eq
    have hin : i < n := by omega
    have hlt : i < ((l.mergeSort (fun a b => decide (b.created_at ≤ a.created_at))).take
        n).length := by
      rw [List.length_take, Nat.lt_min]
      exact ⟨hin, hi⟩
    have he2 : ((l.mergeSort (fun a b => decide (b.created_at ≤ a.created_at))).take
        n)[i] = m := by
      rw [List.getElem_take]
      exact he
    exact he2 ▸ List.getElem_mem hlt

theorem mem_take_sorted_asc_iff (l : List Memory)
    (hmono : l.Pairwise (fun a b => a.created_at < b.created_at)) (m : Memory) (n : Nat) :
    m ∈ (l.mergeSort (fun a b => decide (a.created_at ≤ b.created_at))).take n ↔
      m ∈ l ∧ (l.filter (fun m2 => m2.created_at < m.created_at)).length < n := by
  have hnd : (l.map Memory.created_at).Nodup :=
    List.pairwise_map.mpr (hmono.imp fun h => ne_of_lt h)
  have hperm := List.mergeSort_perm l (fun a b => decide (a.created_at ≤ b.created_at))
  have hsle : (l.mergeSort (fun a b => decide (a.created_at ≤ b.created_at))).Pairwise
      (fun x y => x.created_at ≤ y.created_at) :=
    (@List.sorted_mergeSort Memory (fun a b => decide (a.created_at ≤ b.created_at))
      createdLE_trans createdLE_total l).imp (fun h => of_decide_eq_true h)
  have hsne : (l.mergeSort (fun a b => decide (a.created_at ≤ b.created_at))).Pairwise
      (fun x y => x.created_at ≠ y.created_at) :=
    List.pairwise_map.mp ((List.Perm.nodup_iff (hperm.map Memory.created_at)).mpr hnd)
  have hstrict : (l.mergeSort (fun a b => decide (a.created_at ≤ b.created_at))).Pairwise
      (fun x y => x.created_at < y.created_at) :=
    (hsle.and hsne).imp (fun h => lt_of_le_of_ne h.1 h.2)
  have hasymm : ∀ x y : Memory, y.created_at < x.created_at → ¬x.created_at < y.created_at :=
    fun x y h => not_lt.mpr (le_of_lt h)
  have hirr : ∀ x : Memory, ¬x.created_at < x.created_at := fun x => lt_irrefl _
  constructor
  · intro hm
    rcases List.getElem_of_mem hm with ⟨j, hj, he⟩
    rw [List.length_take, Nat.lt_min] at hj
    rw [List.getElem_take] at he
    constructor
    · exact (List.Perm.mem_iff hperm).mp (he ▸ List.getElem_mem hj.2)
    · have hcnt : ((l.mergeSort (fun a b => decide (a.created_at ≤ b.created_at))).filter
          (fun y => y.created_at < m.created_at)).length ≤ j := by
        have h0 := count_rel_le_index (fun a b : Memory => b.created_at < a.created_at)
          hasymm hirr (l.mergeSort (fun a b => decide (a.created_at ≤ b.created_at))) j
          hj.2 hstrict
        rw [show (l.mergeSort (fun a b => decide (a.created_at ≤ b.created_at))).get
          ⟨j, hj.2⟩ = m from he] at h0
        exact h0
      have hlen : ((l.mergeSort (fun a b => decide (a.created_at ≤ b.created_at))).filter
          (fun y => y.created_at < m.created_at)).length =
          (l.filter (fun y => y.created_at < m.created_at)).length :=
        (List.Perm.filter _ hperm).length_eq
      omega
  · rintro ⟨hm, hcnt⟩
    have hms : m ∈ l.mergeSort (fun a b => decide (a.created_at ≤ b.created_at)) :=
      (List.Perm.mem_iff hperm).mpr hm
    rcases List.getElem_of_mem hms with ⟨i, hi, he⟩
    have hidx : i ≤ ((l.mergeSort (fun a b => decide (a.created_at ≤ b.created_at))).filter
        (fun y => y.created_at < m.created_at)).length := by
      have h0 := index_le_count_rel (fun a b : Memory => b.created_at < a.created_at)
        (l.mergeSort (fun a b => decide (a.created_at ≤ b.created_at))) i hi hstrict
      rw [show (l.mergeSort (fun a b => decide (a.created_at ≤ b.created_at))).get
        ⟨i, hi⟩ = m from he] at h0
      exact h0
    have hlen : ((l.mergeSort (fun a b => decide (a.created_at ≤ b.created_at))).filter
        (fun y => y.created_at < m.created_at)).length =
        (l.filter (fun y => y.created_at < m.created_at)).length :=
      (List.Perm.filter _ hperm).length_eq
    have hin : i < n := by omega
    have hlt : i < ((l.mergeSort (fun a b => decide (a.created_at ≤ b.created_at))).take
        n).length := by
      rw [List.length_take, Nat.lt_min]
      exact ⟨hin, hi⟩
    have he2 : ((l.mergeSort (fun a b => decide (a.created_at ≤ b.created_at))).take
        n)[i] = m := by
      rw [List.getElem_take]
      exact he
    exact he2 ▸ List.getElem_mem hlt

theorem rr_pick_migrate (st : Store) (collection age : String) (r1 r2 : Nat) :
    rr_pick (migrate_fts st) collection age r1 r2 = rr_pick st collection age r1 r2 :=
  rfl

theorem rr_rows_recent (st : Store) (collection : String) (r1 : Nat) :
    rr_rows st collection "recent" r1 =
      ((collRecords st collection).mergeSort
        (fun a b => decide (b.created_at ≤ a.created_at))).take 20 := by
  rw [rr_rows, if_pos rfl]

theorem rr_rows_old (st : Store) (collection : String) (r1 : Nat) :
    rr_rows st collection "old" r1 =
      ((collRecords st collection).mergeSort
        (fun a b => decide (a.created_at ≤ b.created_at))).take 20 := by
  rw [rr_rows, if_neg (by decide), if_pos rfl]

theorem rr_rows_recent_length (st : Store) (collection : String) (r1 : Nat)
    (hlen : 20 < (collRecords st collection).length) :
    (rr_rows st collection "recent" r1).length = 20 := by
  rw [rr_rows_recent, List.length_take, List.length_mergeSort]
  omega

theorem rr_rows_old_length (st : Store) (collection : String) (r1 : Nat)
    (hlen : 20 < (collRecords st collection).length) :
    (rr_rows st collection "old" r1).length = 20 := by
  rw [rr_rows_old, List.length_take, List.length_mergeSort]
  omega

theorem rr_pick_of_length_pos (st : Store) (collection age : String) (r1 r2 : Nat)
    (hpos : 0 < (rr_rows st collection age r1).length) :
    rr_pick st collection age r1 r2 =
      some ((rr_rows st collection age r1).getD
        (r2 % (rr_rows st collection age r1).length) default) := by
  simp only [rr_pick]
  rw [if_neg ?_]
  intro habs
  rw [List.isEmpty_iff] at habs
  rw [habs] at hpos
  exact absurd hpos (by simp)

/-- C8: when a collection holds more than 20 records with strictly increasing
creation timestamps, `randomly_remember(collection, "recent")` always returns
(the formatting of) a record among the 20 most recently created, every such
record is a possible pick, and symmetrically for `"old"` and the 20 oldest;
both candidate pools have exactly 20 rows, from which the pick is made by the
uniform index oracle. -/
theorem rr_age_bias_bounds (st : Store) (collection : String)
    (hlen : 20 < (collRecords st collection).length)
    (hmono : (collRecords st collection).Pairwise
      (fun a b => a.created_at < b.created_at)) :
    (∀ r1 r2 : Nat, ∃ m : Memory, isAmongNewest st collection 20 m ∧
        randomly_remember st collection "recent" r1 r2 =
          (migrate_fts st,
            "[#" ++ toString m.id ++ " · " ++ m.created_at ++ "]\n" ++ m.text)) ∧
    (∀ m : Memory, isAmongNewest st collection 20 m →
        ∃ j : Nat, rr_pick st collection "recent" 0 j = some m) ∧
    (∀ r1 r2 : Nat, ∃ m : Memory, isAmongOldest st collection 20 m ∧
        randomly_remember st collection "old" r1 r2 =
          (migrate_fts st,
            "[#" ++ toString m.id ++ " · " ++ m.created_at ++ "]\n" ++ m.text)) ∧
    (∀ m : Memory, isAmongOldest st collection 20 m →
        ∃ j : Nat, rr_pick st collection "old" 0 j = some m) ∧
    (∀ r1 : Nat, (rr_rows st collection "recent" r1).length = 20 ∧
        (rr_rows st collection "old" r1).length = 20) := by
  have hlr : ∀ r1, (rr_rows st collection "recent" r1).length = 20 :=
    fun r1 => rr_rows_recent_length st collection r1 hlen
  have hlo : ∀ r1, (rr_rows st collection "old" r1).length = 20 :=
    fun r1 => rr_rows_old_length st collection r1 hlen
  refine ⟨?_, ?_, ?_, ?_, fun r1 => ⟨hlr r1, hlo r1⟩⟩
  · intro r1 r2
    have hpos : 0 < (rr_rows st collection "recent" r1).length := by
      rw [hlr r1]
      exact Nat.zero_lt_succ _
    have hidx : r2 % (rr_rows st collection "recent" r1).length <
        (rr_rows st collection "recent" r1).length := Nat.mod_lt _ hpos
    have hgd : (rr_rows st collection "recent" r1).getD
        (r2 % (rr_rows st collection "recent" r1).length) default =
        (rr_rows st collection "recent" r1).get
          ⟨r2 % (rr_rows st collection "recent" r1).length, hidx⟩ :=
      List.getD_eq_getElem _ _ hidx
    refine ⟨(rr_rows st collection "recent" r1).getD
      (r2 % (rr_rows st collection "recent" r1).length) default, ?_, ?_⟩
    · have hmem : (rr_rows st collection "recent" r1).getD
          (r2 % (rr_rows st collection "recent" r1).length) default ∈
          rr_rows st collection "recent" r1 := by
        rw [hgd]
        exact List.getElem_mem hidx
      rw [rr_rows_recent] at hmem
      exact (mem_take_sorted_desc_iff (collRecords st collection) hmono _ 20).mp hmem
    · rw [randomly_remember, rr_pick_migrate,
        rr_pick_of_length_pos st collection "recent" r1 r2 hpos]
  · intro m hm
    have hmem : m ∈ rr_rows st collection "recent" 0 := by
      rw [rr_rows_recent]
      exact (mem_take_sorted_desc_iff (collRecords st collection) hmono m 20).mpr hm
    rcases List.mem_iff_getElem.mp hmem with ⟨j, hj, he⟩
    refine ⟨j, ?_⟩
    have hpos : 0 < (rr_rows st collection "recent" 0).length := Nat.lt_of_le_of_lt
      (Nat.zero_le j) hj
    rw [rr_pick_of_length_pos st collection "recent" 0 j hpos,
      Nat.mod_eq_of_lt hj, List.getD_eq_getElem _ _ hj, he]
  · intro r1 r2
    have hpos : 0 < (rr_rows st collection "old" r1).length := by
      rw [hlo r1]
      exact Nat.zero_lt_succ _
    have hidx : r2 % (rr_rows st collection "old" r1).length <
        (rr_rows st collection "old" r1).length := Nat.mod_lt _ hpos
    have hgd : (rr_rows st collection "old" r1).getD
        (r2 % (rr_rows st collection "old" r1).length) default =
        (rr_rows st collection "old" r1).get
          ⟨r2 % (rr_rows st collection "old" r1).length, hidx⟩ :=
      List.getD_eq_getElem _ _ hidx
    refine ⟨(rr_rows st collection "old" r1).getD
      (r2 % (rr_rows st collection "old" r1).length) default, ?_, ?_⟩
    · have hmem : (rr_rows st collection "old" r1).getD
          (r2 % (rr_rows st collection "old" r1).length) default ∈
          rr_rows st collection "old" r1 := by
        rw [hgd]
        exact List.getElem_mem hidx
      rw [rr_rows_old] at hmem
      exact (mem_take_sorted_asc_iff (collRecords st collection) hmono _ 20).mp hmem
    · rw [randomly_remember, rr_pick_migrate,
        rr_pick_of_length_pos st collection "old" r1 r2 hpos]
  · intro m hm
    have hmem : m ∈ rr_rows st collection "old" 0 := by
      rw [rr_rows_old]
      exact (mem_take_sorted_asc_iff (collRecords st collection) hmono m 20).mpr hm
    rcases List.mem_iff_getElem.mp hmem with ⟨j, hj, he⟩
    refine ⟨j, ?_⟩
    have hpos : 0 < (rr_rows st collection "old" 0).length := Nat.lt_of_le_of_lt
      (Nat.zero_le j) hj
    rw [rr_pick_of_length_pos st collection "old" 0 j hpos,
      Nat.mod_eq_of_lt hj, List.getD_eq_getElem _ _ hj, he]

/-- A store holding 25 records in collection "c" with strictly increasing
creation timestamps. -/
def bigStore : Store :=
  { memories := (List.range 25).map (fun i =>
      { id := i + 1, collection := "c", text := "note",
        created_at := toString (100 + i) }),
    memory_vecs := (List.range 25).map (fun i => (i + 1, [1])),
    memory_fts := (List.range 25).map (fun i => (i + 1, "note")),
    nextId := 26 }

/-- Witness for C8: on `bigStore` both age-biased candidate pools have
exactly 20 rows. -/
theorem rr_age_bias_bounds_witness :
    (rr_rows bigStore "c" "recent" 0).length = 20 ∧
    (rr_rows bigStore "c" "old" 0).length = 20 :=
  (rr_age_bias_bounds bigStore "c" (by decide)
    (by simp only [String.lt_iff_toList_lt]; decide)).2.2.2.2 0

/-- Python's slice `l[:n]` for an int bound `n`, as used on line 154
(`fused[:top_k]`): a non-negative bound keeps the first `n` elements, a
negative bound drops the last `|n|` elements (empty when `|n|` exceeds the
length). -/
def pySliceTo {α : Type} (l : List α) (n : Int) : List α :=
  if 0 ≤ n then l.take n.toNat else l.take (l.length - (-n).toNat)

/-- On natural bounds Python's slice agrees with the truncation used in
`search_memory`. -/
theorem pySliceTo_coe_nat {α : Type} (l : List α) (n : Nat) :
    pySliceTo l (n : Int) = l.take n := by
  rw [pySliceTo, if_pos (Int.ofNat_nonneg n), Int.toNat_ofNat]

/-- The id list tested by the emptiness check of `search_memory`
(lines 154-156), `top_ids = [id for id, _ in fused[:top_k]]`, with Python's
int slicing semantics. -/
def top_ids_py (fused : List (Nat × ℚ)) (top_k : Int) : List Nat :=
  (pySliceTo fused top_k).map Prod.fst

/-- Counterexample to C9 as stated: `top_k = -1` satisfies `top_k ≤ 0`, yet
on a two-candidate fused list (the code's own fusion of two matching
rankings) Python's `fused[:-1]` keeps a candidate, so `top_ids` is non-empty,
the emptiness check of line 156 fails, and the no-memories message is not
returned. -/
theorem search_topk_negative_counterexample :
    (-1 : Int) ≤ 0 ∧
    top_ids_py (reciprocal_rank_fusion [[1, 2], [1, 2]] 60) (-1) ≠ [] := by
  refine ⟨by decide, ?_⟩
  have hlen : (reciprocal_rank_fusion [([1, 2] : List Nat), [1, 2]] 60).length = 2 := by
    rw [reciprocal_rank_fusion, List.length_mergeSort]
    rfl
  have h1 : (top_ids_py (reciprocal_rank_fusion [[1, 2], [1, 2]] 60) (-1)).length = 1 := by
    rw [top_ids_py, pySliceTo, if_neg (by decide), List.length_map, List.length_take, hlen]
    rfl
  intro habs
  rw [habs] at h1
  exact absurd h1 (by decide)
